import Mathlib

/-!
Verification of the J_1BBRANCH remediation engine (src/app/app.py).

The engine scans ABAP source text for statement shapes that reference a
table name (regex `TABLE_USAGE_RE`), decides via a registry whether the
table is obsolete (`migrate_table_usage`), and builds finding records
(`scan_unit`, endpoint `scan_j1bbranch`).

Modelling conventions.  Text is a list of characters (`Str`).  The Python
regex character classes are modelled over ASCII: `\w` is letter / digit /
underscore, `\s` is the six ASCII whitespace characters; `IGNORECASE` is
modelled by comparing lower-cased characters, and `str.upper` / `str.strip`
by their ASCII behaviour.  All inputs exercised by the claims are ASCII, so
this coincides with the Python semantics.  The scanning loops are written
with an explicit fuel argument equal to `length + 1`; every loop step
consumes at least one character, so the fuel never runs out (the
fuel-irrelevance lemma `scanAux_fuel` makes this precise).
-/

namespace App

abbrev Str := List Char

/-- Python `\w` over ASCII: letters, digits, underscore. -/
def isWordChar (c : Char) : Bool := c.isAlpha || c.isDigit || c == '_'

/-- Python `\s` over ASCII. -/
def isPySpace (c : Char) : Bool :=
  c == ' ' || c == '\t' || c == '\n' || c == '\r' || c == '\x0b' || c == '\x0c'

/-- Case-insensitive character comparison (regex `IGNORECASE`, ASCII). -/
def charEqCI (a b : Char) : Bool := a.toLower == b.toLower

def optIsWord : Option Char → Bool
  | none => false
  | some c => isWordChar c

def headIsWord : Str → Bool
  | [] => false
  | c :: _ => isWordChar c

/-- Regex `\b` between the previous character (`none` at the start of the
text) and the rest of the text: true iff exactly one side is a word
character. -/
def wordBoundary (prev : Option Char) (s : Str) : Bool :=
  optIsWord prev != headIsWord s

/-- The character preceding the current position after consuming `consumed`,
given the character that preceded `consumed`. -/
def prevAfter (consumed : Str) (prev : Option Char) : Option Char :=
  match consumed.getLast? with
  | some c => some c
  | none => prev

/-- Match a literal case-insensitively at the front of the text, returning
the consumed characters (in their original case) and the rest. -/
def matchLitCI : Str → Str → Option (Str × Str)
  | [], s => some ([], s)
  | _ :: _, [] => none
  | p :: ps, c :: cs =>
    if charEqCI p c then
      match matchLitCI ps cs with
      | some (a, r) => some (c :: a, r)
      | none => none
    else none

def selectLit : Str := ['S', 'E', 'L', 'E', 'C', 'T']
def fromLit : Str := ['F', 'R', 'O', 'M']
def joinLit : Str := ['J', 'O', 'I', 'N']
def tablesLit : Str := ['T', 'A', 'B', 'L', 'E', 'S']
def typeLit : Str := ['T', 'Y', 'P', 'E']
def likeLit : Str := ['L', 'I', 'K', 'E']
def tableLit : Str := ['T', 'A', 'B', 'L', 'E']
def ofLit : Str := ['O', 'F']

/-- The tail `\s+ (?P<table>\w+)` of every alternative of `TABLE_USAGE_RE`:
a nonempty greedy whitespace run, then the nonempty greedy word-character
run captured as the table name.  (`\s` and `\w` are disjoint, so the greedy
runs are exactly the maximal runs; no backtracking can arise between them.)
Returns (keyword group text, table group text, rest). -/
def matchSpTable (acc : Str) (s : Str) : Option (Str × Str × Str) :=
  let sp := s.takeWhile isPySpace
  let r2 := s.dropWhile isPySpace
  let tb := r2.takeWhile isWordChar
  let r3 := r2.dropWhile isWordChar
  if sp = [] then none
  else if tb = [] then none
  else some (acc ++ sp, tb, r3)

/-- The continuation `\bFROM\b\s+ (?P<table>\w+)` tried at each lazy-dot
position of the `SELECT` alternative. -/
def fromCont (prev : Option Char) (s : Str) : Option (Str × Str × Str) :=
  if wordBoundary prev s then
    match matchLitCI fromLit s with
    | some (c, r) =>
      if wordBoundary (prevAfter c prev) r then matchSpTable c r else none
    | none => none
  else none

/-- The lazy `.*?` (with `DOTALL`: any character, newline included) of the
`SELECT` alternative: try the `FROM` continuation at the current position,
and on failure consume one character and retry — shortest match first. -/
def lazyDotFrom : Option Char → Str → Option (Str × Str × Str)
  | prev, s =>
    match fromCont prev s with
    | some res => some res
    | none =>
      match s with
      | [] => none
      | c :: cs =>
        match lazyDotFrom (some c) cs with
        | some (k, tb, r) => some (c :: k, tb, r)
        | none => none

/-- Alternative 1: `SELECT\b.*?\bFROM\b\s+` then the table capture. -/
def altSelect (prev : Option Char) (s : Str) : Option (Str × Str × Str) :=
  match matchLitCI selectLit s with
  | some (c, r) =>
    if wordBoundary (prevAfter c prev) r then
      match lazyDotFrom (prevAfter c prev) r with
      | some (k, tb, r2) => some (c ++ k, tb, r2)
      | none => none
    else none
  | none => none

/-- Alternatives 2 and 3: `JOIN\b\s+` / `TABLES\b\s+` then the capture. -/
def altKeywordSimple (lit : Str) (prev : Option Char) (s : Str) :
    Option (Str × Str × Str) :=
  match matchLitCI lit s with
  | some (c, r) =>
    if wordBoundary (prevAfter c prev) r then matchSpTable c r else none
  | none => none

/-- `(TYPE|LIKE)`, ordered: `TYPE` is tried first.  The two literals are
disjoint, so no backtracking between them can arise. -/
def matchTypeLike (s : Str) : Option (Str × Str) :=
  match matchLitCI typeLit s with
  | some res => some res
  | none => matchLitCI likeLit s

/-- Alternative 4: `(TYPE|LIKE)\b\s+TABLE\s+OF\s+` then the capture.
Each greedy `\s+` is followed by a non-space character class, so it is
exactly the maximal whitespace run. -/
def altTypeTableOf (prev : Option Char) (s : Str) : Option (Str × Str × Str) :=
  match matchTypeLike s with
  | some (c1, r1) =>
    if wordBoundary (prevAfter c1 prev) r1 then
      let sp1 := r1.takeWhile isPySpace
      let r2 := r1.dropWhile isPySpace
      if sp1 = [] then none
      else
        match matchLitCI tableLit r2 with
        | some (c2, r3) =>
          let sp2 := r3.takeWhile isPySpace
          let r4 := r3.dropWhile isPySpace
          if sp2 = [] then none
          else
            match matchLitCI ofLit r4 with
            | some (c3, r5) => matchSpTable (c1 ++ sp1 ++ c2 ++ sp2 ++ c3) r5
            | none => none
        | none => none
    else none
  | none => none

/-- Alternative 5: `(TYPE|LIKE)\b\s+` then the capture. -/
def altTypeLike (prev : Option Char) (s : Str) : Option (Str × Str × Str) :=
  match matchTypeLike s with
  | some (c1, r1) =>
    if wordBoundary (prevAfter c1 prev) r1 then matchSpTable c1 r1 else none
  | none => none

/-- One attempt of `TABLE_USAGE_RE` at the current position: the leading
`\b`, then the five keyword alternatives in the order they appear in the
pattern (leftmost alternation, first match wins).  Returns
(keyword group, table group, rest of the text). -/
def matchAt (prev : Option Char) (s : Str) : Option (Str × Str × Str) :=
  if wordBoundary prev s then
    match altSelect prev s with
    | some r => some r
    | none =>
      match altKeywordSimple joinLit prev s with
      | some r => some r
      | none =>
        match altKeywordSimple tablesLit prev s with
        | some r => some r
        | none =>
          match altTypeTableOf prev s with
          | some r => some r
          | none => altTypeLike prev s
  else none

/-- One regex match: start offset, the `keyword` group and the `table`
group (the whole match, group 0, is `keyword ++ table`). -/
structure RMatch where
  start : Nat
  keyword : Str
  table : Str
deriving DecidableEq

def RMatch.stop (m : RMatch) : Nat := m.start + m.keyword.length + m.table.length

/-- `finditer` loop: attempt a match at each position, left to right; on a
match, emit it and resume right after it (every match is at least one
character long).  `fuel` bounds the number of loop steps; each step consumes
at least one character, so `length + 1` is always enough. -/
def scanAux : Nat → Option Char → Nat → Str → List RMatch
  | 0, _, _, _ => []
  | fuel + 1, prev, pos, s =>
    match matchAt prev s with
    | some (kw, tb, rest) =>
      ⟨pos, kw, tb⟩ ::
        scanAux fuel (prevAfter tb (prevAfter kw prev)) (pos + kw.length + tb.length) rest
    | none =>
      match s with
      | [] => []
      | c :: cs => scanAux fuel (some c) (pos + 1) cs

/-- `TABLE_USAGE_RE.finditer(text)`. -/
def finditer (text : Str) : List RMatch := scanAux (text.length + 1) none 0 text

/-- `OBSOLETE_TABLE_MAP = {"J_1BBRANCH": "P_BusinessPlace"}`. -/
def OBSOLETE_TABLE_MAP : List (Str × Str) :=
  [(("J_1BBRANCH").data, ("P_BusinessPlace").data)]

/-- Dict lookup `OBSOLETE_TABLE_MAP[k]` (None when the key is absent). -/
def mapFind (k : Str) : Option Str :=
  (OBSOLETE_TABLE_MAP.find? (fun p => p.1 == k)).map (fun p => p.2)

/-- Python `str.upper` (ASCII). -/
def pyUpper (s : Str) : Str := s.map Char.toUpper

/-- Python `str.strip` (ASCII whitespace). -/
def pyStrip (s : Str) : Str :=
  ((s.dropWhile isPySpace).reverse.dropWhile isPySpace).reverse

/-- `keyword.strip().upper().startswith("SELECT")`. -/
def isSelectKeyword (kw : Str) : Bool :=
  selectLit.isPrefixOf (pyUpper (pyStrip kw))

/-- One step of `re.sub(rf"\b{table}\b", ..., flags=re.IGNORECASE)`:
`\b`, the table name literally (case-insensitively — the name coming from a
`\w+` capture contains no regex metacharacters), `\b`. -/
def subMatchAt (pat : Str) (prev : Option Char) (s : Str) : Option (Str × Str) :=
  if wordBoundary prev s then
    match matchLitCI pat s with
    | some (c, r) =>
      if wordBoundary (prevAfter c prev) r then some (c, r) else none
    | none => none
  else none

/-- `re.sub` scan: non-overlapping matches, left to right, each replaced by
`repl`; boundaries are judged on the original text. -/
def reSubGo (pat repl : Str) : Nat → Option Char → Str → Str
  | 0, _, s => s
  | fuel + 1, prev, s =>
    match subMatchAt pat prev s with
    | some (c, r) => repl ++ reSubGo pat repl fuel (prevAfter c prev) r
    | none =>
      match s with
      | [] => []
      | c :: cs => c :: reSubGo pat repl fuel (some c) cs

/-- `re.sub(rf"\b{pat}\b", repl, s, flags=re.IGNORECASE)` for a nonempty
word-character pattern (the only way it is invoked: `pat` is a `\w+`
capture, hence nonempty). -/
def reSubWordCI (pat repl s : Str) : Str :=
  if pat = [] then s else reSubGo pat repl (s.length + 1) none s

/-- The migration comment built by `migrate_table_usage`. -/
def mkComment (t_up new_table : Str) : Str :=
  ("* TODO: ").data ++ t_up ++
    (" is obsolete in S/4HANA (SAP Note 3404390). Use released CDS view ").data ++
    new_table ++ (" instead. Adjust field mappings accordingly.").data

/-- `migrate_table_usage(keyword, table)`. -/
def migrate_table_usage (keyword table : Str) : Option Str :=
  let t_up := pyUpper table
  match mapFind t_up with
  | some new_table =>
    if isSelectKeyword keyword then
      some (("SELECT * FROM ").data ++ new_table ++ '\n' :: mkComment t_up new_table)
    else
      some (reSubWordCI table new_table (keyword ++ table) ++
            '\n' :: mkComment t_up new_table)
  | none => none

/-- `line_of_offset(text, off) = text.count("\n", 0, off) + 1`. -/
def line_of_offset (text : Str) (off : Nat) : Nat :=
  (text.take off).countP (fun c => c == '\n') + 1

/-- `snippet_at(text, start, end)`: a window of 60 characters of context on
each side, newlines rendered as the two characters `\` `n`. -/
def snippet_at (text : Str) (start stop : Nat) : Str :=
  let s := start - 60
  let e := min text.length (stop + 60)
  (((text.drop s).take (e - s)).map
    (fun c => if c == '\n' then ['\\', 'n'] else [c])).flatten

/-- The finding dict built by `scan_unit` (the `meta` sub-dict is
flattened into the three `meta_` fields). -/
structure Finding where
  pgm_name : Str
  inc_name : Str
  type : Str
  name : Option Str
  start_line : Option Int
  end_line : Option Int
  issue_type : Str
  severity : Str
  line : Nat
  message : Str
  suggestion : Str
  snippet : Str
  meta_original_table : Str
  meta_replacement_view : Str
  meta_original_statement : Str
deriving DecidableEq

/-- The `Unit` pydantic model. -/
structure Unit where
  pgm_name : Str
  inc_name : Str
  type : Str
  name : Option Str := some []
  start_line : Option Int := some 0
  end_line : Option Int := some 0
  code : Option Str := some []
  j1bbranch_findings : Option (List Finding) := none
deriving DecidableEq

/-- The body of the `scan_unit` loop for one match: `migrate_table_usage`
returning a falsy value (`None`; an empty string would also be falsy)
makes the loop `continue`, otherwise the finding dict is built. -/
def scanFindingOf (u : Unit) (src : Str) (m : RMatch) : Option Finding :=
  match migrate_table_usage m.keyword m.table with
  | none => none
  | some repl =>
    if repl = [] then none
    else
      some
        { pgm_name := u.pgm_name
          inc_name := u.inc_name
          type := u.type
          name := u.name
          start_line := u.start_line
          end_line := u.end_line
          issue_type := ("ObsoleteTableUsage").data
          severity := ("warning").data
          line := line_of_offset src m.start
          message := ("Obsolete table ").data ++ m.table ++
            (" used. Replace with CDS view ").data ++
            ((mapFind (pyUpper m.table)).getD []) ++
            (" per SAP Note 3404390.").data
          suggestion := repl
          snippet := snippet_at src m.start m.stop
          meta_original_table := m.table
          meta_replacement_view := (mapFind (pyUpper m.table)).getD []
          meta_original_statement := pyStrip (m.keyword ++ m.table) }

/-- `scan_unit(unit)`: the unit's dump with `j1bbranch_findings` set to the
findings collected over all regex matches. -/
def scan_unit (u : Unit) : Unit :=
  let src := u.code.getD []
  { u with j1bbranch_findings := some ((finditer src).filterMap (scanFindingOf u src)) }

/-- The findings list of a scanned unit. -/
def unitFindings (u : Unit) : List Finding :=
  (scan_unit u).j1bbranch_findings.getD []

/-- Python truthiness of `res["j1bbranch_findings"]` (a list: nonempty). -/
def pyTruthyFindings : Option (List Finding) → Bool
  | some (_ :: _) => true
  | _ => false

/-- The `/remediate-array` endpoint `scan_j1bbranch`: scan each unit in
order and keep only the results with a nonempty findings list. -/
def scan_j1bbranch : List Unit → List Unit
  | [] => []
  | u :: rest =>
    let res := scan_unit u
    if pyTruthyFindings res.j1bbranch_findings then res :: scan_j1bbranch rest
    else scan_j1bbranch rest

/-- First line of a text (everything before the first newline). -/
def firstLine (s : Str) : Str := s.takeWhile (fun c => c != '\n')

/-- Everything after the first newline. -/
def afterFirstNl (s : Str) : Str := (s.dropWhile (fun c => c != '\n')).drop 1

/-- Whether `pat` occurs as a contiguous substring of the text. -/
def containsSub (pat : Str) : Str → Bool
  | [] => pat.isEmpty
  | c :: rest => pat.isPrefixOf (c :: rest) || containsSub pat rest

/-- Modelled from the spec: an edit of the Span-Ordered Rewriter (§4.4),
a component the source repository does not implement (only `scan_unit` and
its helpers exist); `[start, stop)` is a span into the text, `repl` the
replacement text. -/
structure Edit where
  start : Nat
  stop : Nat
  repl : Str
deriving DecidableEq

/-- Modelled from the spec: the direct splice
`text[:s] + replacement + text[e:]` of §4.4. -/
def splice (t : Str) (ed : Edit) : Str :=
  t.take ed.start ++ ed.repl ++ t.drop ed.stop

/-- Modelled from the spec: apply the edits by descending start offset,
rightmost span first (§4.4).  The edit list is supplied in ascending start
order (the scanner's order); `foldr` hence splices the rightmost edit
first. -/
def applyDesc (t : Str) (edits : List Edit) : Str :=
  edits.foldr (fun ed acc => splice acc ed) t

/-- Modelled from the spec: the offset-bookkeeping ascending strategy the
spec compares against — apply the edits in ascending order, shifting each
span by the accumulated length change `d` of the edits already applied. -/
def applyAsc : Int → Str → List Edit → Str
  | _, t, [] => t
  | d, t, ed :: rest =>
    applyAsc (d + (ed.repl.length : Int) - ((ed.stop : Int) - (ed.start : Int)))
      (splice t ⟨((ed.start : Int) + d).toNat, ((ed.stop : Int) + d).toNat, ed.repl⟩)
      rest

/-- The non-overlap precondition of §4.4 for an ascending edit list over a
text of length `n`: spans are within bounds, well-formed, and pairwise
non-overlapping. -/
def chainEd : Nat → List Edit → Nat → Bool
  | _, [], _ => true
  | p, ed :: rest, n =>
    decide (p ≤ ed.start) && decide (ed.start ≤ ed.stop) && decide (ed.stop ≤ n) &&
      chainEd ed.stop rest n

/-- The segment normal form both strategies compute: alternating untouched
text segments and replacements. -/
def segs (t : Str) (p : Nat) : List Edit → Str
  | [] => t.drop p
  | ed :: rest => (t.take ed.start).drop p ++ ed.repl ++ segs t ed.stop rest

/-- ASCII single quote. -/
def sq : Char := '\x27'

/-- The end-to-end example text of the spec (§8.6):
`DATA: lt_tab TYPE TABLE OF J_1BBRANCH.` then
`SELECT * FROM J_1BBRANCH WHERE bukrs = '1000'.` on the next line. -/
def text5 : Str :=
  ("DATA: lt_tab TYPE TABLE OF J_1BBRANCH.\nSELECT * FROM J_1BBRANCH WHERE bukrs = ").data ++
    sq :: ("1000").data ++ [sq, '.']

/-- A unit holding the end-to-end example text. -/
def unit5 : Unit :=
  { pgm_name := ("ZPROG").data, inc_name := ("ZINC").data, type := ("PROG").data,
    code := some text5 }

/-- The `TYPE TABLE OF ` keyword-group text. -/
def typeTableOfKw : Str := ("TYPE TABLE OF ").data

/-- The case variants of the `TYPE TABLE OF ` keyword text: each letter in
upper or lower case (its two ASCII case-insensitive forms), single spaces —
exactly the single-space spellings the `(TYPE)\b\s+TABLE\s+OF\s+`
alternative recognizes via its `IGNORECASE` matching. -/
def typeTableOfCI : Str → Bool
  | [t1, y1, p1, e1, s1, t2, a2, b2, l2, e2, s2, o2, f2, s3] =>
    (t1 == 'T' || t1 == 't') && (y1 == 'Y' || y1 == 'y') &&
      (p1 == 'P' || p1 == 'p') && (e1 == 'E' || e1 == 'e') && s1 == ' ' &&
      (t2 == 'T' || t2 == 't') && (a2 == 'A' || a2 == 'a') &&
      (b2 == 'B' || b2 == 'b') && (l2 == 'L' || l2 == 'l') &&
      (e2 == 'E' || e2 == 'e') && s2 == ' ' &&
      (o2 == 'O' || o2 == 'o') && (f2 == 'F' || f2 == 'f') && s3 == ' '
  | _ => false

/-! ## Structural lemmas about the matcher -/

theorem matchLitCI_spec : ∀ (lit s a r : Str),
    matchLitCI lit s = some (a, r) → a ++ r = s ∧ a.length = lit.length := by
  intro lit
  induction lit with
  | nil =>
    intro s a r h
    simp only [matchLitCI, Option.some.injEq, Prod.mk.injEq] at h
    obtain ⟨h1, h2⟩ := h
    subst h1; subst h2
    simp
  | cons p ps ih =>
    intro s a r h
    cases s with
    | nil => simp [matchLitCI] at h
    | cons c cs =>
      rw [matchLitCI] at h
      split at h
      · split at h
        · rename_i a1 r1 heq
          simp only [Option.some.injEq, Prod.mk.injEq] at h
          obtain ⟨h1, h2⟩ := h
          subst h1; subst h2
          obtain ⟨g1, g2⟩ := ih cs a1 r1 heq
          constructor
          · simpa using congrArg (c :: ·) g1
          · simpa using g2
        · exact absurd h (by simp)
      · exact absurd h (by simp)

theorem matchSpTable_spec : ∀ (acc s kw tb r : Str),
    matchSpTable acc s = some (kw, tb, r) →
      (∃ sp, kw = acc ++ sp ∧ sp ++ (tb ++ r) = s) ∧ tb ≠ [] := by
  intro acc s kw tb r h
  unfold matchSpTable at h
  dsimp only at h
  split at h
  · exact absurd h (by simp)
  · split at h
    · exact absurd h (by simp)
    · rename_i h1 h2
      simp only [Option.some.injEq, Prod.mk.injEq] at h
      obtain ⟨hkw, htb, hr⟩ := h
      refine ⟨⟨s.takeWhile isPySpace, hkw.symm, ?_⟩, htb ▸ h2⟩
      rw [← htb, ← hr, List.takeWhile_append_dropWhile, List.takeWhile_append_dropWhile]

theorem fromCont_spec : ∀ (prev : Option Char) (s kw tb r : Str),
    fromCont prev s = some (kw, tb, r) → kw ++ (tb ++ r) = s ∧ tb ≠ [] := by
  intro prev s kw tb r h
  unfold fromCont at h
  split at h
  · split at h
    · rename_i c r1 heq
      split at h
      · obtain ⟨⟨sp, hkw, hsp⟩, htb⟩ := matchSpTable_spec c r1 kw tb r h
        obtain ⟨hcr, _⟩ := matchLitCI_spec fromLit s c r1 heq
        exact ⟨by rw [hkw, List.append_assoc, hsp, hcr], htb⟩
      · exact absurd h (by simp)
    · exact absurd h (by simp)
  · exact absurd h (by simp)

theorem lazyDotFrom_spec : ∀ (s : Str) (prev : Option Char) (kw tb r : Str),
    lazyDotFrom prev s = some (kw, tb, r) → kw ++ (tb ++ r) = s ∧ tb ≠ [] := by
  intro s
  induction s with
  | nil =>
    intro prev kw tb r h
    rw [lazyDotFrom] at h
    split at h
    · rename_i res heq
      obtain rfl : res = (kw, tb, r) := by simpa using h
      exact fromCont_spec prev [] kw tb r heq
    · exact absurd h (by simp)
  | cons c cs ih =>
    intro prev kw tb r h
    rw [lazyDotFrom] at h
    split at h
    · rename_i res heq
      obtain rfl : res = (kw, tb, r) := by simpa using h
      exact fromCont_spec prev (c :: cs) kw tb r heq
    · split at h
      · rename_i k1 tb1 r1 heq
        simp only [Option.some.injEq, Prod.mk.injEq] at h
        obtain ⟨h1, h2, h3⟩ := h
        subst h1; subst h2; subst h3
        obtain ⟨g1, g2⟩ := ih (some c) k1 tb1 r1 heq
        exact ⟨by simpa using congrArg (c :: ·) g1, g2⟩
      · exact absurd h (by simp)

theorem altSelect_spec : ∀ (prev : Option Char) (s kw tb r : Str),
    altSelect prev s = some (kw, tb, r) → kw ++ (tb ++ r) = s ∧ tb ≠ [] := by
  intro prev s kw tb r h
  unfold altSelect at h
  split at h
  · rename_i c r1 heq
    split at h
    · split at h
      · rename_i k1 tb1 r2 heq2
        simp only [Option.some.injEq, Prod.mk.injEq] at h
        obtain ⟨h1, h2, h3⟩ := h
        subst h1; subst h2; subst h3
        obtain ⟨g1, g2⟩ := lazyDotFrom_spec r1 (prevAfter c prev) k1 tb1 r2 heq2
        obtain ⟨hcr, _⟩ := matchLitCI_spec selectLit s c r1 heq
        exact ⟨by rw [List.append_assoc, g1, hcr], g2⟩
      · exact absurd h (by simp)
    · exact absurd h (by simp)
  · exact absurd h (by simp)

theorem altKeywordSimple_spec : ∀ (lit : Str) (prev : Option Char) (s kw tb r : Str),
    altKeywordSimple lit prev s = some (kw, tb, r) → kw ++ (tb ++ r) = s ∧ tb ≠ [] := by
  intro lit prev s kw tb r h
  unfold altKeywordSimple at h
  split at h
  · rename_i c r1 heq
    split at h
    · obtain ⟨⟨sp, hkw, hsp⟩, htb⟩ := matchSpTable_spec c r1 kw tb r h
      obtain ⟨hcr, _⟩ := matchLitCI_spec lit s c r1 heq
      exact ⟨by rw [hkw, List.append_assoc, hsp, hcr], htb⟩
    · exact absurd h (by simp)
  · exact absurd h (by simp)

theorem matchTypeLike_spec : ∀ (s a r : Str),
    matchTypeLike s = some (a, r) → a ++ r = s := by
  intro s a r h
  unfold matchTypeLike at h
  split at h
  · rename_i res heq
    obtain rfl : res = (a, r) := by simpa using h
    exact (matchLitCI_spec typeLit s a r heq).1
  · exact (matchLitCI_spec likeLit s a r h).1

theorem altTypeTableOf_spec : ∀ (prev : Option Char) (s kw tb r : Str),
    altTypeTableOf prev s = some (kw, tb, r) → kw ++ (tb ++ r) = s ∧ tb ≠ [] := by
  intro prev s kw tb r h
  unfold altTypeTableOf at h
  split at h
  · rename_i c1 r1 heq
    split at h
    · dsimp only at h
      split at h
      · exact absurd h (by simp)
      · rename_i h1
        split at h
        · rename_i c2 r3 heq2
          split at h
          · exact absurd h (by simp)
          · rename_i h2
            split at h
            · rename_i c3 r5 heq3
              obtain ⟨⟨sp, hkw, hsp⟩, htb⟩ :=
                matchSpTable_spec
                  (c1 ++ r1.takeWhile isPySpace ++ c2 ++ r3.takeWhile isPySpace ++ c3)
                  r5 kw tb r h
              obtain h3 := matchTypeLike_spec s c1 r1 heq
              obtain ⟨h4, _⟩ := matchLitCI_spec tableLit (r1.dropWhile isPySpace) c2 r3 heq2
              obtain ⟨h5, _⟩ := matchLitCI_spec ofLit (r3.dropWhile isPySpace) c3 r5 heq3
              refine ⟨?_, htb⟩
              rw [hkw]
              calc c1 ++ r1.takeWhile isPySpace ++ c2 ++ r3.takeWhile isPySpace ++ c3 ++ sp
                    ++ (tb ++ r)
                  = c1 ++ (r1.takeWhile isPySpace ++ (c2 ++ (r3.takeWhile isPySpace ++
                      (c3 ++ (sp ++ (tb ++ r)))))) := by simp [List.append_assoc]
                _ = s := by
                      rw [hsp, h5, List.takeWhile_append_dropWhile, h4,
                        List.takeWhile_append_dropWhile, h3]
            · exact absurd h (by simp)
        · exact absurd h (by simp)
    · exact absurd h (by simp)
  · exact absurd h (by simp)

theorem altTypeLike_spec : ∀ (prev : Option Char) (s kw tb r : Str),
    altTypeLike prev s = some (kw, tb, r) → kw ++ (tb ++ r) = s ∧ tb ≠ [] := by
  intro prev s kw tb r h
  unfold altTypeLike at h
  split at h
  · rename_i c1 r1 heq
    split at h
    · obtain ⟨⟨sp, hkw, hsp⟩, htb⟩ := matchSpTable_spec c1 r1 kw tb r h
      obtain h3 := matchTypeLike_spec s c1 r1 heq
      exact ⟨by rw [hkw, List.append_assoc, hsp, h3], htb⟩
    · exact absurd h (by simp)
  · exact absurd h (by simp)

/-- A successful match attempt consumes exactly `keyword ++ table` from the
front of the text, and the table group is nonempty. -/
theorem matchAt_spec : ∀ (prev : Option Char) (s kw tb r : Str),
    matchAt prev s = some (kw, tb, r) → kw ++ (tb ++ r) = s ∧ tb ≠ [] := by
  intro prev s kw tb r h
  unfold matchAt at h
  split at h
  · split at h
    · rename_i res heq
      obtain rfl : res = (kw, tb, r) := by simpa using h
      exact altSelect_spec prev s kw tb r heq
    · split at h
      · rename_i res heq
        obtain rfl : res = (kw, tb, r) := by simpa using h
        exact altKeywordSimple_spec joinLit prev s kw tb r heq
      · split at h
        · rename_i res heq
          obtain rfl : res = (kw, tb, r) := by simpa using h
          exact altKeywordSimple_spec tablesLit prev s kw tb r heq
        · split at h
          · rename_i res heq
            obtain rfl : res = (kw, tb, r) := by simpa using h
            exact altTypeTableOf_spec prev s kw tb r heq
          · exact altTypeLike_spec prev s kw tb r h
  · exact absurd h (by simp)

theorem matchAt_nil : ∀ (prev : Option Char), matchAt prev [] = none := by
  intro prev
  cases hm : matchAt prev [] with
  | none => rfl
  | some res =>
    obtain ⟨kw, tb, r⟩ := res
    obtain ⟨happ, htb⟩ := matchAt_spec prev [] kw tb r hm
    exact absurd (List.append_eq_nil.mp (List.append_eq_nil.mp happ).2).1 htb

theorem scanAux_zero (prev : Option Char) (pos : Nat) (s : Str) :
    scanAux 0 prev pos s = [] := rfl

theorem scanAux_succ (fuel : Nat) (prev : Option Char) (pos : Nat) (s : Str) :
    scanAux (fuel + 1) prev pos s =
      match matchAt prev s with
      | some (kw, tb, rest) =>
        ⟨pos, kw, tb⟩ ::
          scanAux fuel (prevAfter tb (prevAfter kw prev)) (pos + kw.length + tb.length) rest
      | none =>
        match s with
        | [] => []
        | c :: cs => scanAux fuel (some c) (pos + 1) cs := rfl

/-- The scanning loop is insensitive to the exact fuel value, as long as the
fuel exceeds the length of the remaining text: each loop step consumes at
least one character. -/
theorem scanAux_fuel : ∀ (n f g : Nat) (prev : Option Char) (pos : Nat) (s : Str),
    s.length ≤ n → s.length ≤ f → s.length ≤ g →
    scanAux (f + 1) prev pos s = scanAux (g + 1) prev pos s := by
  intro n
  induction n with
  | zero =>
    intro f g prev pos s h1 _ _
    obtain rfl : s = [] := List.length_eq_zero.mp (Nat.le_zero.mp h1)
    rw [scanAux_succ, scanAux_succ, matchAt_nil]
  | succ n ih =>
    intro f g prev pos s h1 h2 h3
    rw [scanAux_succ, scanAux_succ]
    cases hm : matchAt prev s with
    | some res =>
      obtain ⟨kw, tb, rest⟩ := res
      simp only [hm]
      obtain ⟨happ, htb⟩ := matchAt_spec prev s kw tb rest hm
      have hlen : kw.length + (tb.length + rest.length) = s.length := by
        rw [← happ]; simp
      have htb1 : 0 < tb.length := List.length_pos.mpr htb
      congr 1
      obtain ⟨f', rfl⟩ : ∃ f', f = f' + 1 := ⟨f - 1, by omega⟩
      obtain ⟨g', rfl⟩ : ∃ g', g = g' + 1 := ⟨g - 1, by omega⟩
      exact ih f' g' _ _ rest (by omega) (by omega) (by omega)
    | none =>
      simp only [hm]
      cases s with
      | nil => rfl
      | cons c cs =>
        simp only [List.length_cons] at h1 h2 h3
        obtain ⟨f', rfl⟩ : ∃ f', f = f' + 1 := ⟨f - 1, by omega⟩
        obtain ⟨g', rfl⟩ : ∃ g', g = g' + 1 := ⟨g - 1, by omega⟩
        exact ih f' g' _ _ cs (by omega) (by omega) (by omega)

/-- Every match produced by the scanning loop starts at or after the
current position, is nonempty, and ends within the text. -/
theorem scanAux_bounds : ∀ (fuel : Nat) (prev : Option Char) (pos : Nat) (s : Str)
    (m : RMatch), m ∈ scanAux fuel prev pos s →
    pos ≤ m.start ∧ m.start < m.stop ∧ m.stop ≤ pos + s.length := by
  intro fuel
  induction fuel with
  | zero => intro prev pos s m hmem; simp [scanAux_zero] at hmem
  | succ fuel ih =>
    intro prev pos s m hmem
    rw [scanAux_succ] at hmem
    cases hm : matchAt prev s with
    | some res =>
      obtain ⟨kw, tb, rest⟩ := res
      simp only [hm, List.mem_cons] at hmem
      obtain ⟨happ, htb⟩ := matchAt_spec prev s kw tb rest hm
      have hlen : kw.length + (tb.length + rest.length) = s.length := by
        rw [← happ]; simp
      have htb1 : 0 < tb.length := List.length_pos.mpr htb
      rcases hmem with rfl | hmem
      · refine ⟨le_refl _, ?_, ?_⟩ <;> simp only [RMatch.stop] <;> omega
      · obtain ⟨g1, g2, g3⟩ := ih _ _ rest m hmem
        exact ⟨by omega, g2, by omega⟩
    | none =>
      simp only [hm] at hmem
      cases s with
      | nil => simp at hmem
      | cons c cs =>
        obtain ⟨g1, g2, g3⟩ := ih _ _ cs m hmem
        refine ⟨by omega, g2, ?_⟩
        simp only [List.length_cons]
        omega

/-- The matches of the scanning loop are pairwise ordered: each ends at or
before the next begins. -/
theorem scanAux_pairwise : ∀ (fuel : Nat) (prev : Option Char) (pos : Nat) (s : Str),
    List.Pairwise (fun a b => a.stop ≤ b.start) (scanAux fuel prev pos s) := by
  intro fuel
  induction fuel with
  | zero => intro prev pos s; simp [scanAux_zero]
  | succ fuel ih =>
    intro prev pos s
    rw [scanAux_succ]
    cases hm : matchAt prev s with
    | some res =>
      obtain ⟨kw, tb, rest⟩ := res
      simp only [hm]
      refine List.Pairwise.cons ?_ (ih _ _ _)
      intro m hmem
      have hb := (scanAux_bounds fuel _ _ rest m hmem).1
      simp only [RMatch.stop]
      omega
    | none =>
      simp only [hm]
      cases s with
      | nil => simp
      | cons c cs => exact ih _ _ _

/-- Bridging lemma: bounded, pairwise ordered matches satisfy the
rewriter's non-overlap precondition, whatever the replacement texts. -/
theorem chainEd_of_matches : ∀ (ms : List RMatch) (p n : Nat) (f : RMatch → Str),
    (∀ m ∈ ms, m.start < m.stop ∧ m.stop ≤ n) →
    List.Pairwise (fun a b => a.stop ≤ b.start) ms →
    (∀ m ∈ ms.head?, p ≤ m.start) →
    chainEd p (ms.map (fun m => ⟨m.start, m.stop, f m⟩)) n = true := by
  intro ms
  induction ms with
  | nil => intro p n f _ _ _; simp [chainEd]
  | cons m tl ih =>
    intro p n f hb hp hh
    simp only [List.map_cons, chainEd, Bool.and_eq_true, decide_eq_true_eq]
    obtain ⟨h1, h2⟩ := hb m (by simp)
    refine ⟨⟨⟨hh m (by simp), by omega⟩, h2⟩, ?_⟩
    apply ih m.stop n f (fun x hx => hb x (by simp [hx])) ((List.pairwise_cons.mp hp).2)
    intro x hx
    exact (List.pairwise_cons.mp hp).1 x (List.mem_of_mem_head? hx)

/-! ## Registry, substitution and line lemmas -/

theorem mapFind_eq : ∀ (k : Str),
    mapFind k =
      if (("J_1BBRANCH").data == k) then some (("P_BusinessPlace").data) else none := by
  intro k
  unfold mapFind OBSOLETE_TABLE_MAP
  by_cases hk : ((("J_1BBRANCH").data == k) : Bool) = true
  · rw [if_pos hk]
    simp [List.find?_cons, hk]
  · rw [if_neg hk]
    rw [Bool.not_eq_true] at hk
    simp [List.find?_cons, hk]

theorem mapFind_inv : ∀ (k y : Str), mapFind k = some y →
    k = ("J_1BBRANCH").data ∧ y = ("P_BusinessPlace").data := by
  intro k y h
  rw [mapFind_eq] at h
  split at h
  · rename_i hk
    exact ⟨(eq_of_beq hk).symm, (Option.some.injEq _ _ ▸ h).symm⟩
  · exact absurd h (by simp)

theorem subMatchAt_spec : ∀ (pat : Str) (prev : Option Char) (s c r : Str),
    subMatchAt pat prev s = some (c, r) → c ++ r = s ∧ c.length = pat.length := by
  intro pat prev s c r h
  unfold subMatchAt at h
  split at h
  · split at h
    · rename_i c1 r1 heq
      split at h
      · simp only [Option.some.injEq, Prod.mk.injEq] at h
        obtain ⟨h1, h2⟩ := h
        subst h1; subst h2
        exact matchLitCI_spec pat s _ _ heq
      · exact absurd h (by simp)
    · exact absurd h (by simp)
  · exact absurd h (by simp)

theorem reSubGo_succ (pat repl : Str) (fuel : Nat) (prev : Option Char) (s : Str) :
    reSubGo pat repl (fuel + 1) prev s =
      match subMatchAt pat prev s with
      | some (c, r) => repl ++ reSubGo pat repl fuel (prevAfter c prev) r
      | none =>
        match s with
        | [] => []
        | c :: cs => c :: reSubGo pat repl fuel (some c) cs := rfl

/-- Every character of the `re.sub` output comes from the replacement or
from the original text. -/
theorem reSubGo_mem : ∀ (fuel : Nat) (pat repl : Str) (prev : Option Char) (s : Str)
    (x : Char), x ∈ reSubGo pat repl fuel prev s → x ∈ repl ∨ x ∈ s := by
  intro fuel
  induction fuel with
  | zero => intro pat repl prev s x hx; exact Or.inr hx
  | succ fuel ih =>
    intro pat repl prev s x hx
    rw [reSubGo_succ] at hx
    cases hm : subMatchAt pat prev s with
    | some pr =>
      obtain ⟨c, r⟩ := pr
      simp only [hm, List.mem_append] at hx
      rcases hx with hx | hx
      · exact Or.inl hx
      · rcases ih pat repl _ r x hx with hx | hx
        · exact Or.inl hx
        · refine Or.inr ?_
          rw [← (subMatchAt_spec pat prev s c r hm).1]
          exact List.mem_append_right _ hx
    | none =>
      simp only [hm] at hx
      cases s with
      | nil => simp at hx
      | cons ch cs =>
        simp only [List.mem_cons] at hx
        rcases hx with rfl | hx
        · exact Or.inr (by simp)
        · rcases ih pat repl _ cs x hx with hx | hx
          · exact Or.inl hx
          · exact Or.inr (by simp [hx])

theorem reSubWordCI_mem : ∀ (pat repl s : Str) (x : Char),
    x ∈ reSubWordCI pat repl s → x ∈ repl ∨ x ∈ s := by
  intro pat repl s x hx
  unfold reSubWordCI at hx
  split at hx
  · exact Or.inr hx
  · exact reSubGo_mem (s.length + 1) pat repl none s x hx

theorem firstLine_append : ∀ (A B : Str), '\n' ∉ A →
    firstLine (A ++ '\n' :: B) = A := by
  intro A
  induction A with
  | nil => intro B _; simp [firstLine]
  | cons a as ih =>
    intro B h
    have ha : a ≠ '\n' := fun hh => h (by simp [hh])
    simp only [List.cons_append, firstLine, List.takeWhile_cons]
    rw [if_pos (by simpa using ha)]
    have := ih B (fun hh => h (by simp [hh]))
    simp only [firstLine] at this
    rw [this]

/-- Counting with a predicate over a prefix equals counting the positions
below the cut-off (with an out-of-range default the predicate rejects). -/
theorem countP_take_eq_range : ∀ (l : Str) (n : Nat) (p : Char → Bool) (d : Char),
    p d = false →
    (l.take n).countP p = (List.range n).countP (fun i => p (l.getD i d)) := by
  intro l n p d hd
  induction n with
  | zero => simp
  | succ n ih =>
    rw [List.range_succ, List.countP_append, ← ih, List.take_succ, List.countP_append]
    congr 1
    simp only [List.countP_cons, List.countP_nil, Nat.zero_add]
    cases hx : l[n]? with
    | none =>
      have hg : l.getD n d = d := by
        rw [List.getD_eq_getElem?_getD, hx]; rfl
      simp [Option.toList, hx, hg, hd]
    | some c =>
      have hg : l.getD n d = c := by
        rw [List.getD_eq_getElem?_getD, hx]; rfl
      simp [Option.toList, hx, hg, List.countP_cons, List.countP_nil]

theorem word_not_space : ∀ c : Char, isWordChar c = true → isPySpace c = false := by
  intro c h
  by_cases h1 : c = ' '
  · exact absurd h (by rw [h1]; decide)
  by_cases h2 : c = '\t'
  · exact absurd h (by rw [h2]; decide)
  by_cases h3 : c = '\n'
  · exact absurd h (by rw [h3]; decide)
  by_cases h4 : c = '\r'
  · exact absurd h (by rw [h4]; decide)
  by_cases h5 : c = '\x0b'
  · exact absurd h (by rw [h5]; decide)
  by_cases h6 : c = '\x0c'
  · exact absurd h (by rw [h6]; decide)
  unfold isPySpace
  simp [h1, h2, h3, h4, h5, h6]

theorem takeWhile_word_name : ∀ (name rest : Str),
    (∀ c ∈ name, isWordChar c = true) → (∀ c ∈ rest.head?, isWordChar c = false) →
    (name ++ rest).takeWhile isWordChar = name ∧
    (name ++ rest).dropWhile isWordChar = rest := by
  intro name
  induction name with
  | nil =>
    intro rest _ hrest
    cases rest with
    | nil => exact ⟨rfl, rfl⟩
    | cons r rs =>
      have hr : isWordChar r = false := hrest r rfl
      constructor
      · simp [List.takeWhile_cons, hr]
      · simp [List.dropWhile_cons, hr]
  | cons c0 cs ih =>
    intro rest hall hrest
    have hw : isWordChar c0 = true := hall c0 (by simp)
    obtain ⟨ht, hd⟩ := ih rest (fun c hc => hall c (by simp [hc])) hrest
    constructor
    · rw [List.cons_append, List.takeWhile_cons, if_pos hw, ht]
    · rw [List.cons_append, List.dropWhile_cons, if_pos hw, hd]

theorem scanAux_nil : ∀ (fuel : Nat) (prev : Option Char) (pos : Nat),
    scanAux fuel prev pos [] = [] := by
  intro fuel prev pos
  cases fuel with
  | zero => rfl
  | succ fuel => rw [scanAux_succ, matchAt_nil]

/-! ## Claims -/

/-- C1: for every statement prefix and every resource name whose
upper-cased form is not a key of the registry, `migrate_table_usage`
returns `none`; consequently every finding emitted by `scan_unit` refers to
a resource that is present in the registry — non-obsolete matches are
dropped silently. -/
theorem claim1_registry_gating :
    (∀ keyword table : Str, mapFind (pyUpper table) = none →
      migrate_table_usage keyword table = none) ∧
    (∀ (u : Unit) (f : Finding), f ∈ unitFindings u →
      ∃ y, mapFind (pyUpper f.meta_original_table) = some y) := by
  constructor
  · intro kw tb h
    unfold migrate_table_usage
    dsimp only
    rw [h]
  · intro u f hf
    have hrw : unitFindings u =
        (finditer (u.code.getD [])).filterMap (scanFindingOf u (u.code.getD [])) := rfl
    rw [hrw, List.mem_filterMap] at hf
    obtain ⟨m, _, hsome⟩ := hf
    unfold scanFindingOf at hsome
    split at hsome
    · exact absurd hsome (by simp)
    · rename_i repl heq
      split at hsome
      · exact absurd hsome (by simp)
      · have hmap : ∃ y, mapFind (pyUpper m.table) = some y := by
          unfold migrate_table_usage at heq
          dsimp only at heq
          cases hm2 : mapFind (pyUpper m.table) with
          | none => rw [hm2] at heq; simp at heq
          | some y => exact ⟨y, rfl⟩
        simp only [Option.some.injEq] at hsome
        rw [← hsome]
        exact hmap

theorem claim1_witness :
    migrate_table_usage (("TABLES ").data) (("MARA").data) = none :=
  claim1_registry_gating.1 _ _ (by decide)

/-- C2: for a statement prefix recognized as a `SELECT` shape and a
registry-mapped name with replacement `Y`, the suggestion is exactly the
line `SELECT * FROM Y` (the original projection list is discarded), a
single newline, and the newline-free migration comment. -/
theorem claim2_select_rewrite : ∀ (keyword table Y : Str),
    mapFind (pyUpper table) = some Y → isSelectKeyword keyword = true →
    migrate_table_usage keyword table =
      some (("SELECT * FROM ").data ++ Y ++ '\n' :: mkComment (pyUpper table) Y) ∧
    firstLine (("SELECT * FROM ").data ++ Y ++ '\n' :: mkComment (pyUpper table) Y) =
      ("SELECT * FROM ").data ++ Y ∧
    (mkComment (pyUpper table) Y).count '\n' = 0 := by
  intro kw tb Y h1 h2
  obtain ⟨hk, hy⟩ := mapFind_inv _ _ h1
  refine ⟨?_, ?_, ?_⟩
  · unfold migrate_table_usage
    dsimp only
    rw [h1]
    dsimp only
    rw [if_pos h2]
  · rw [hk, hy]
    decide
  · rw [hk, hy]
    decide

theorem claim2_witness :
    mapFind (pyUpper (("J_1BBRANCH").data)) = some (("P_BusinessPlace").data) ∧
    isSelectKeyword (("SELECT field1, field2 FROM ").data) = true ∧
    (migrate_table_usage (("SELECT field1, field2 FROM ").data) (("J_1BBRANCH").data) =
      some (("SELECT * FROM ").data ++ ("P_BusinessPlace").data ++
        '\n' :: mkComment (pyUpper (("J_1BBRANCH").data)) (("P_BusinessPlace").data)) ∧
    firstLine (("SELECT * FROM ").data ++ ("P_BusinessPlace").data ++
        '\n' :: mkComment (pyUpper (("J_1BBRANCH").data)) (("P_BusinessPlace").data)) =
      ("SELECT * FROM ").data ++ ("P_BusinessPlace").data ∧
    (mkComment (pyUpper (("J_1BBRANCH").data)) (("P_BusinessPlace").data)).count '\n' = 0) :=
  ⟨by decide, by decide, claim2_select_rewrite _ _ _ (by decide) (by decide)⟩

/-- C6: `line_of_offset` is one plus the number of newline characters at
positions strictly below the offset; in particular it is `1` at offset
`0`. -/
theorem claim6_line_of : ∀ (text : Str) (off : Nat),
    line_of_offset text off =
      (List.range off).countP (fun i => text.getD i ' ' == '\n') + 1 ∧
    line_of_offset text 0 = 1 := by
  intro text off
  constructor
  · unfold line_of_offset
    rw [countP_take_eq_range text off _ ' ' (by decide)]
  · rfl

/-- C8: a unit whose code is absent or empty produces zero regex matches
and an (empty) findings list; the scan is total, so no error is possible. -/
theorem claim8_empty_input : ∀ (u : Unit), u.code = none ∨ u.code = some [] →
    finditer (u.code.getD []) = [] ∧
    (scan_unit u).j1bbranch_findings = some [] := by
  intro u h
  have hsrc : u.code.getD [] = [] := by
    rcases h with h | h <;> rw [h] <;> rfl
  have hf : finditer (u.code.getD []) = [] := by rw [hsrc]; rfl
  refine ⟨hf, ?_⟩
  have hpr : (scan_unit u).j1bbranch_findings =
      some ((finditer (u.code.getD [])).filterMap (scanFindingOf u (u.code.getD []))) := rfl
  rw [hpr, hf]
  rfl

theorem claim8_witness :
    finditer (((⟨("Z").data, ("Z").data, ("P").data, some [], some 0, some 0,
        none, none⟩ : Unit).code).getD []) = [] ∧
    (scan_unit ⟨("Z").data, ("Z").data, ("P").data, some [], some 0, some 0,
        none, none⟩).j1bbranch_findings = some [] :=
  claim8_empty_input _ (Or.inl rfl)

/-- C9: the endpoint omits every unit whose scan produced no findings (no
record with an empty or missing findings list is returned), returns the
surviving scanned units in their input order, and `scan_unit` echoes all
input fields of the unit unchanged. -/
theorem claim9_omit_empty : ∀ (us : List Unit),
    (∀ r ∈ scan_j1bbranch us, ∃ f fs, r.j1bbranch_findings = some (f :: fs)) ∧
    scan_j1bbranch us =
      (us.filter (fun u => pyTruthyFindings (scan_unit u).j1bbranch_findings)).map
        scan_unit ∧
    (∀ u : Unit, (scan_unit u).pgm_name = u.pgm_name ∧
      (scan_unit u).inc_name = u.inc_name ∧ (scan_unit u).type = u.type ∧
      (scan_unit u).name = u.name ∧ (scan_unit u).start_line = u.start_line ∧
      (scan_unit u).end_line = u.end_line ∧ (scan_unit u).code = u.code) := by
  intro us
  refine ⟨?_, ?_, fun u => ⟨rfl, rfl, rfl, rfl, rfl, rfl, rfl⟩⟩
  · induction us with
    | nil => intro r hr; simp [scan_j1bbranch] at hr
    | cons u rest ih =>
      intro r hr
      rw [scan_j1bbranch] at hr
      by_cases ht : pyTruthyFindings (scan_unit u).j1bbranch_findings
      · rw [if_pos ht] at hr
        rcases List.mem_cons.mp hr with rfl | hr
        · have hL : (scan_unit u).j1bbranch_findings =
              some ((finditer (u.code.getD [])).filterMap
                (scanFindingOf u (u.code.getD []))) := rfl
          cases hLs : (finditer (u.code.getD [])).filterMap
              (scanFindingOf u (u.code.getD [])) with
          | nil =>
            rw [hL, hLs] at ht
            exact absurd ht (by simp [pyTruthyFindings])
          | cons f fs =>
            exact ⟨f, fs, by rw [hL, hLs]⟩
        · exact ih r hr
      · rw [if_neg ht] at hr
        exact ih r hr
  · induction us with
    | nil => rfl
    | cons u rest ih =>
      rw [scan_j1bbranch]
      rw [List.filter_cons]
      by_cases ht : pyTruthyFindings (scan_unit u).j1bbranch_findings
      · rw [if_pos ht, if_pos (by simpa using ht), List.map_cons, ih]
      · rw [if_neg ht, if_neg (by simpa using ht), ih]

theorem claim9_witness :
    scan_j1bbranch [unit5] =
      (List.filter (fun u => pyTruthyFindings (scan_unit u).j1bbranch_findings)
        [unit5]).map scan_unit :=
  (claim9_omit_empty [unit5]).2.1

/-- C10: for every text the scanner's matches are in strictly increasing
start order with pairwise disjoint spans within the bounds of the text, so
the edit set derived from one scan satisfies the rewriter's non-overlap
precondition for any choice of replacement texts. -/
theorem claim10_matches_ordered : ∀ (text : Str),
    (∀ m ∈ finditer text, m.start < m.stop ∧ m.stop ≤ text.length) ∧
    List.Pairwise (fun a b => a.stop ≤ b.start) (finditer text) ∧
    List.Pairwise (fun a b => a.start < b.start) (finditer text) ∧
    ∀ f : RMatch → Str,
      chainEd 0 ((finditer text).map (fun m => ⟨m.start, m.stop, f m⟩))
        text.length = true := by
  intro text
  have hb : ∀ m ∈ finditer text,
      0 ≤ m.start ∧ m.start < m.stop ∧ m.stop ≤ 0 + text.length :=
    fun m hm => scanAux_bounds (text.length + 1) none 0 text m hm
  have hp : List.Pairwise (fun a b => a.stop ≤ b.start) (finditer text) :=
    scanAux_pairwise (text.length + 1) none 0 text
  refine ⟨fun m hm => ⟨(hb m hm).2.1, by have := (hb m hm).2.2; omega⟩, hp, ?_, ?_⟩
  · exact hp.imp_of_mem (fun hma hmb hr =>
      lt_of_lt_of_le (hb _ hma).2.1 hr)
  · intro f
    refine chainEd_of_matches (finditer text) 0 text.length f ?_ hp ?_
    · intro m hm
      exact ⟨(hb m hm).2.1, by have := (hb m hm).2.2; omega⟩
    · intro m hm
      exact (hb m (List.mem_of_mem_head? hm)).1

theorem claim10_witness :
    List.Pairwise (fun a b => a.stop ≤ b.start) (finditer text5) :=
  (claim10_matches_ordered text5).2.1

/-- C3 fails as stated: the scanner does produce non-`SELECT` statement
prefixes containing a newline (here `TABLES\n`, matched by the scanner on
the text `TABLES\nJ_1BBRANCH`), and for such a prefix the suggestion's
first line is `TABLES`, not the whole-word substitution of
`prefix + name`. -/
theorem claim3_counterexample :
    mapFind (pyUpper (("J_1BBRANCH").data)) = some (("P_BusinessPlace").data) ∧
    isSelectKeyword (("TABLES\n").data) = false ∧
    finditer (("TABLES\nJ_1BBRANCH").data) =
      [⟨0, ("TABLES\n").data, ("J_1BBRANCH").data⟩] ∧
    firstLine ((migrate_table_usage (("TABLES\n").data) (("J_1BBRANCH").data)).getD []) ≠
      reSubWordCI (("J_1BBRANCH").data) (("P_BusinessPlace").data)
        ((("TABLES\n").data) ++ ("J_1BBRANCH").data) := by
  refine ⟨by decide, by decide, by decide, by decide⟩

/-- C3 (amended): for every newline-free statement prefix whose trimmed,
upper-cased form does not begin with `SELECT` and every registry-mapped
name with replacement `Y`, the suggestion is the whole-word
case-insensitive substitution of the name by `Y` inside `prefix + name`,
followed by a newline and the comment; its first line is exactly that
substituted string.  A token containing the name only as a proper substring
is not rewritten by the substitution. -/
theorem claim3_non_select_rewrite : ∀ (keyword table Y : Str),
    mapFind (pyUpper table) = some Y → isSelectKeyword keyword = false →
    migrate_table_usage keyword table =
      some (reSubWordCI table Y (keyword ++ table) ++
        '\n' :: mkComment (pyUpper table) Y) ∧
    ('\n' ∉ keyword →
      firstLine (reSubWordCI table Y (keyword ++ table) ++
          '\n' :: mkComment (pyUpper table) Y) =
        reSubWordCI table Y (keyword ++ table)) ∧
    reSubWordCI (("J_1BBRANCH").data) (("P_BusinessPlace").data)
        (("TABLES XJ_1BBRANCH J_1BBRANCHX J_1BBRANCH").data) =
      ("TABLES XJ_1BBRANCH J_1BBRANCHX P_BusinessPlace").data := by
  intro kw tb Y h1 h2
  obtain ⟨hk, hy⟩ := mapFind_inv _ _ h1
  refine ⟨?_, ?_, by decide⟩
  · unfold migrate_table_usage
    dsimp only
    rw [h1]
    dsimp only
    rw [if_neg (by simp [h2])]
  · intro h3
    apply firstLine_append
    intro hmem
    rcases reSubWordCI_mem tb Y (kw ++ tb) '\n' hmem with hmem | hmem
    · rw [hy] at hmem
      exact absurd hmem (by decide)
    · rcases List.mem_append.mp hmem with hmem | hmem
      · exact h3 hmem
      · have : Char.toUpper '\n' ∈ pyUpper tb := List.mem_map_of_mem _ hmem
        rw [hk] at this
        exact absurd this (by decide)

/-- C5: scanning the end-to-end example unit produces exactly two findings:
one at the `TYPE TABLE OF` occurrence (line 1) whose suggestion's first
line is `TYPE TABLE OF P_BusinessPlace`, and one at the `SELECT...FROM`
occurrence (line 2) whose suggestion's first line is
`SELECT * FROM P_BusinessPlace`; each suggestion consists of exactly two
lines, the second being a comment naming both `J_1BBRANCH` and
`P_BusinessPlace`. -/
theorem claim5_end_to_end :
    (unitFindings unit5).length = 2 ∧
    (unitFindings unit5).map (fun f => firstLine f.suggestion) =
      [("TYPE TABLE OF P_BusinessPlace").data, ("SELECT * FROM P_BusinessPlace").data] ∧
    (unitFindings unit5).map (fun f => f.line) = [1, 2] ∧
    (unitFindings unit5).map (fun f => f.meta_original_statement) =
      [("TYPE TABLE OF J_1BBRANCH").data, ("SELECT * FROM J_1BBRANCH").data] ∧
    (unitFindings unit5).all
      (fun f => f.suggestion.count '\n' == 1 &&
        containsSub (("J_1BBRANCH").data) (afterFirstNl f.suggestion) &&
        containsSub (("P_BusinessPlace").data) (afterFirstNl f.suggestion)) = true := by
  refine ⟨by decide, by decide, by decide, by decide, by decide⟩

theorem claim3_witness :
    mapFind (pyUpper (("j_1bbranch").data)) = some (("P_BusinessPlace").data) ∧
    isSelectKeyword (("TABLES ").data) = false ∧
    migrate_table_usage (("TABLES ").data) (("j_1bbranch").data) =
      some (reSubWordCI (("j_1bbranch").data) (("P_BusinessPlace").data)
          ((("TABLES ").data) ++ ("j_1bbranch").data) ++
        '\n' :: mkComment (pyUpper (("j_1bbranch").data)) (("P_BusinessPlace").data)) ∧
    firstLine ((migrate_table_usage (("TABLES ").data) (("j_1bbranch").data)).getD []) =
      ("TABLES P_BusinessPlace").data :=
  ⟨by decide, by decide,
    (claim3_non_select_rewrite _ _ _ (by decide) (by decide)).1, by decide⟩

/-- C4 fails as stated: the text `SELECT A FROM TYPE TABLE OF X` contains
the construct `TYPE TABLE OF X`, yet the scanner yields no match at its
position with statement prefix `TYPE TABLE OF ` — the single match is the
earlier-starting `SELECT … FROM` alternative, which consumes the position
and captures `TYPE` as its table name. -/
theorem claim4_counterexample :
    ("SELECT A FROM TYPE TABLE OF X").data =
      ("SELECT A FROM ").data ++ typeTableOfKw ++ ("X").data ∧
    (finditer (("SELECT A FROM TYPE TABLE OF X").data)).map
        (fun m => (m.start, m.keyword, m.table)) =
      [(0, ("SELECT A FROM ").data, ("TYPE").data)] := by
  refine ⟨by decide, by decide⟩

/-- Every case variant of a literal matches it case-insensitively,
consuming exactly its own characters. -/
theorem matchLitCI_forall2 : ∀ (lit a : Str),
    List.Forall₂ (fun pc c => charEqCI pc c = true) lit a →
    ∀ r : Str, matchLitCI lit (a ++ r) = some (a, r) := by
  intro lit a h
  induction h with
  | nil => intro r; rfl
  | cons hpc _ ih =>
    intro r
    rw [List.cons_append, matchLitCI, if_pos hpc, ih r]

/-- C4 (amended): at any position preceded by a non-word character (or the
start of the text) where the text reads a case variant of
`TYPE TABLE OF <name>` (any ASCII case for the letters, `<name>` a maximal
nonempty word-character run), a match attempt returns the Match whose
statement prefix covers the whole case-variant `TYPE TABLE OF ` keyword
sequence and whose resource name is `<name>`: the five alternatives are
tried in the pattern's order, so the bare `TYPE`/`LIKE` alternative does
not capture `TABLE`.  In particular a text consisting of the construct
alone scans to exactly this one match. -/
theorem claim4_type_table_of : ∀ (prev : Option Char) (kwText name : Str),
    typeTableOfCI kwText = true →
    (∀ c, prev = some c → isWordChar c = false) →
    name ≠ [] → (∀ c ∈ name, isWordChar c = true) →
    (∀ rest : Str, (∀ c ∈ rest.head?, isWordChar c = false) →
      matchAt prev (kwText ++ (name ++ rest)) = some (kwText, name, rest)) ∧
    finditer (kwText ++ name) = [⟨0, kwText, name⟩] := by
  intro prev kwText name hci hprev hne hall
  obtain ⟨c0, name', rfl⟩ := List.exists_cons_of_ne_nil hne
  have hw0 : isWordChar c0 = true := hall c0 (by simp)
  have hs0 : isPySpace c0 = false := word_not_space c0 hw0
  unfold typeTableOfCI at hci
  split at hci
  · rename_i t1 y1 p1 e1 s1 t2 a2 b2 l2 e2 s2 o2 f2 s3
    simp only [Bool.and_eq_true, Bool.or_eq_true, beq_iff_eq] at hci
    obtain ⟨⟨⟨⟨⟨⟨⟨⟨⟨⟨⟨⟨⟨ht1, hy1⟩, hp1⟩, he1⟩, hs1⟩, ht2⟩, ha2⟩, hb2⟩, hl2⟩,
      he2⟩, hs2⟩, ho2⟩, hf2⟩, hs3⟩ := hci
    subst hs1; subst hs2; subst hs3
    have hwt1 : isWordChar t1 = true := by rcases ht1 with rfl | rfl <;> decide
    have hwe1 : isWordChar e1 = true := by rcases he1 with rfl | rfl <;> decide
    have hnst2 : isPySpace t2 = false := by rcases ht2 with rfl | rfl <;> decide
    have hnso2 : isPySpace o2 = false := by rcases ho2 with rfl | rfl <;> decide
    have hciS : charEqCI 'S' t1 = false := by rcases ht1 with rfl | rfl <;> decide
    have hciJ : charEqCI 'J' t1 = false := by rcases ht1 with rfl | rfl <;> decide
    have hciT1 : charEqCI 'T' t1 = true := by rcases ht1 with rfl | rfl <;> decide
    have hciA : charEqCI 'A' y1 = false := by rcases hy1 with rfl | rfl <;> decide
    have f2TYPE : List.Forall₂ (fun pc c => charEqCI pc c = true)
        ['T', 'Y', 'P', 'E'] [t1, y1, p1, e1] := by
      refine .cons hciT1 (.cons ?_ (.cons ?_ (.cons ?_ .nil)))
      · rcases hy1 with rfl | rfl <;> decide
      · rcases hp1 with rfl | rfl <;> decide
      · rcases he1 with rfl | rfl <;> decide
    have f2TABLE : List.Forall₂ (fun pc c => charEqCI pc c = true)
        ['T', 'A', 'B', 'L', 'E'] [t2, a2, b2, l2, e2] := by
      refine .cons ?_ (.cons ?_ (.cons ?_ (.cons ?_ (.cons ?_ .nil))))
      · rcases ht2 with rfl | rfl <;> decide
      · rcases ha2 with rfl | rfl <;> decide
      · rcases hb2 with rfl | rfl <;> decide
      · rcases hl2 with rfl | rfl <;> decide
      · rcases he2 with rfl | rfl <;> decide
    have f2OF : List.Forall₂ (fun pc c => charEqCI pc c = true)
        ['O', 'F'] [o2, f2] := by
      refine .cons ?_ (.cons ?_ .nil)
      · rcases ho2 with rfl | rfl <;> decide
      · rcases hf2 with rfl | rfl <;> decide
    have hmain : ∀ (pv : Option Char) (rest : Str),
        (∀ c, pv = some c → isWordChar c = false) →
        (∀ c ∈ rest.head?, isWordChar c = false) →
        matchAt pv ([t1, y1, p1, e1, ' ', t2, a2, b2, l2, e2, ' ', o2, f2, ' '] ++
            ((c0 :: name') ++ rest)) =
          some ([t1, y1, p1, e1, ' ', t2, a2, b2, l2, e2, ' ', o2, f2, ' '],
            c0 :: name', rest) := by
      intro pv rest hpv hrest
      obtain ⟨ht, hd⟩ := takeWhile_word_name (c0 :: name') rest hall hrest
      show matchAt pv (t1 :: y1 :: p1 :: e1 :: ' ' :: t2 :: a2 :: b2 :: l2 :: e2 ::
          ' ' :: o2 :: f2 :: ' ' :: ((c0 :: name') ++ rest)) =
        some ([t1, y1, p1, e1, ' ', t2, a2, b2, l2, e2, ' ', o2, f2, ' '],
          c0 :: name', rest)
      have hb : wordBoundary pv (t1 :: y1 :: p1 :: e1 :: ' ' :: t2 :: a2 :: b2 ::
          l2 :: e2 :: ' ' :: o2 :: f2 :: ' ' :: ((c0 :: name') ++ rest)) = true := by
        cases pv with
        | none =>
          unfold wordBoundary optIsWord headIsWord
          dsimp only
          rw [hwt1]
          rfl
        | some c =>
          have hc := hpv c rfl
          unfold wordBoundary optIsWord headIsWord
          dsimp only
          rw [hc, hwt1]
          rfl
      have hAlt1 : altSelect pv (t1 :: y1 :: p1 :: e1 :: ' ' :: t2 :: a2 :: b2 ::
          l2 :: e2 :: ' ' :: o2 :: f2 :: ' ' :: ((c0 :: name') ++ rest)) = none := by
        have hLit : matchLitCI selectLit (t1 :: y1 :: p1 :: e1 :: ' ' :: t2 :: a2 ::
            b2 :: l2 :: e2 :: ' ' :: o2 :: f2 :: ' ' :: ((c0 :: name') ++ rest)) =
            none := by
          unfold selectLit
          rw [matchLitCI, if_neg (by simp [hciS])]
        unfold altSelect
        rw [hLit]
      have hAlt2 : altKeywordSimple joinLit pv (t1 :: y1 :: p1 :: e1 :: ' ' :: t2 ::
          a2 :: b2 :: l2 :: e2 :: ' ' :: o2 :: f2 :: ' ' :: ((c0 :: name') ++ rest)) =
          none := by
        have hLit : matchLitCI joinLit (t1 :: y1 :: p1 :: e1 :: ' ' :: t2 :: a2 ::
            b2 :: l2 :: e2 :: ' ' :: o2 :: f2 :: ' ' :: ((c0 :: name') ++ rest)) =
            none := by
          unfold joinLit
          rw [matchLitCI, if_neg (by simp [hciJ])]
        unfold altKeywordSimple
        rw [hLit]
      have hAlt3 : altKeywordSimple tablesLit pv (t1 :: y1 :: p1 :: e1 :: ' ' :: t2 ::
          a2 :: b2 :: l2 :: e2 :: ' ' :: o2 :: f2 :: ' ' :: ((c0 :: name') ++ rest)) =
          none := by
        have hLitI : matchLitCI ['A', 'B', 'L', 'E', 'S'] (y1 :: p1 :: e1 :: ' ' ::
            t2 :: a2 :: b2 :: l2 :: e2 :: ' ' :: o2 :: f2 :: ' ' ::
            ((c0 :: name') ++ rest)) = none := by
          rw [matchLitCI, if_neg (by simp [hciA])]
        have hLit : matchLitCI tablesLit (t1 :: y1 :: p1 :: e1 :: ' ' :: t2 :: a2 ::
            b2 :: l2 :: e2 :: ' ' :: o2 :: f2 :: ' ' :: ((c0 :: name') ++ rest)) =
            none := by
          unfold tablesLit
          rw [matchLitCI, if_pos hciT1, hLitI]
        unfold altKeywordSimple
        rw [hLit]
      have e0 : matchTypeLike (t1 :: y1 :: p1 :: e1 :: ' ' :: t2 :: a2 :: b2 :: l2 ::
          e2 :: ' ' :: o2 :: f2 :: ' ' :: ((c0 :: name') ++ rest)) =
          some ([t1, y1, p1, e1], ' ' :: t2 :: a2 :: b2 :: l2 :: e2 :: ' ' :: o2 ::
            f2 :: ' ' :: ((c0 :: name') ++ rest)) := by
        unfold matchTypeLike
        rw [show matchLitCI typeLit (t1 :: y1 :: p1 :: e1 :: ' ' :: t2 :: a2 :: b2 ::
            l2 :: e2 :: ' ' :: o2 :: f2 :: ' ' :: ((c0 :: name') ++ rest)) =
            some ([t1, y1, p1, e1], ' ' :: t2 :: a2 :: b2 :: l2 :: e2 :: ' ' :: o2 ::
              f2 :: ' ' :: ((c0 :: name') ++ rest)) from
          matchLitCI_forall2 typeLit [t1, y1, p1, e1] f2TYPE
            (' ' :: t2 :: a2 :: b2 :: l2 :: e2 :: ' ' :: o2 :: f2 :: ' ' ::
              ((c0 :: name') ++ rest))]
      have h4 : altTypeTableOf pv (t1 :: y1 :: p1 :: e1 :: ' ' :: t2 :: a2 :: b2 ::
          l2 :: e2 :: ' ' :: o2 :: f2 :: ' ' :: ((c0 :: name') ++ rest)) =
          some ([t1, y1, p1, e1, ' ', t2, a2, b2, l2, e2, ' ', o2, f2, ' '],
            c0 :: name', rest) := by
        unfold altTypeTableOf
        rw [e0]
        dsimp only
        rw [show prevAfter [t1, y1, p1, e1] pv = some e1 from rfl]
        have hbe : wordBoundary (some e1) (' ' :: t2 :: a2 :: b2 :: l2 :: e2 :: ' ' ::
            o2 :: f2 :: ' ' :: ((c0 :: name') ++ rest)) = true := by
          unfold wordBoundary optIsWord headIsWord
          dsimp only
          rw [hwe1]
          rfl
        rw [if_pos hbe]
        rw [show (' ' :: t2 :: a2 :: b2 :: l2 :: e2 :: ' ' :: o2 :: f2 :: ' ' ::
            ((c0 :: name') ++ rest)).takeWhile isPySpace = [' '] from by
          rw [List.takeWhile_cons, if_pos (by decide), List.takeWhile_cons,
            if_neg (by simp [hnst2])]]
        rw [show (' ' :: t2 :: a2 :: b2 :: l2 :: e2 :: ' ' :: o2 :: f2 :: ' ' ::
            ((c0 :: name') ++ rest)).dropWhile isPySpace = t2 :: a2 :: b2 :: l2 ::
            e2 :: ' ' :: o2 :: f2 :: ' ' :: ((c0 :: name') ++ rest) from by
          rw [List.dropWhile_cons, if_pos (by decide), List.dropWhile_cons,
            if_neg (by simp [hnst2])]]
        rw [if_neg (by simp)]
        rw [show matchLitCI tableLit (t2 :: a2 :: b2 :: l2 :: e2 :: ' ' :: o2 :: f2 ::
            ' ' :: ((c0 :: name') ++ rest)) = some ([t2, a2, b2, l2, e2],
              ' ' :: o2 :: f2 :: ' ' :: ((c0 :: name') ++ rest)) from
          matchLitCI_forall2 tableLit [t2, a2, b2, l2, e2] f2TABLE
            (' ' :: o2 :: f2 :: ' ' :: ((c0 :: name') ++ rest))]
        dsimp only
        rw [show (' ' :: o2 :: f2 :: ' ' :: ((c0 :: name') ++ rest)).takeWhile
            isPySpace = [' '] from by
          rw [List.takeWhile_cons, if_pos (by decide), List.takeWhile_cons,
            if_neg (by simp [hnso2])]]
        rw [show (' ' :: o2 :: f2 :: ' ' :: ((c0 :: name') ++ rest)).dropWhile
            isPySpace = o2 :: f2 :: ' ' :: ((c0 :: name') ++ rest) from by
          rw [List.dropWhile_cons, if_pos (by decide), List.dropWhile_cons,
            if_neg (by simp [hnso2])]]
        rw [if_neg (by simp)]
        rw [show matchLitCI ofLit (o2 :: f2 :: ' ' :: ((c0 :: name') ++ rest)) =
            some ([o2, f2], ' ' :: ((c0 :: name') ++ rest)) from
          matchLitCI_forall2 ofLit [o2, f2] f2OF (' ' :: ((c0 :: name') ++ rest))]
        unfold matchSpTable
        dsimp only
        rw [show (' ' :: ((c0 :: name') ++ rest)).takeWhile isPySpace = [' '] from by
          rw [List.takeWhile_cons, if_pos (by decide), List.cons_append,
            List.takeWhile_cons, if_neg (by simp [hs0])]]
        rw [show (' ' :: ((c0 :: name') ++ rest)).dropWhile isPySpace =
            (c0 :: name') ++ rest from by
          rw [List.dropWhile_cons, if_pos (by decide), List.cons_append,
            List.dropWhile_cons, if_neg (by simp [hs0])]]
        rw [ht, hd]
        rw [if_neg (by simp), if_neg (by simp)]
        rfl
      unfold matchAt
      rw [if_pos hb, hAlt1, hAlt2, hAlt3, h4]
    constructor
    · intro rest hrest
      exact hmain prev rest hprev hrest
    · unfold finditer
      rw [show [t1, y1, p1, e1, ' ', t2, a2, b2, l2, e2, ' ', o2, f2, ' '] ++
          (c0 :: name') = [t1, y1, p1, e1, ' ', t2, a2, b2, l2, e2, ' ', o2, f2, ' ']
          ++ ((c0 :: name') ++ []) from by simp]
      rw [scanAux_succ]
      rw [hmain none [] (by simp) (by simp)]
      dsimp only
      rw [scanAux_nil]
  · exact absurd hci (by simp)

theorem claim4_witness :
    typeTableOfCI (("Type table OF ").data) = true ∧
    finditer ((("Type table OF ").data) ++ ("J_1BBRANCH").data) =
      [⟨0, ("Type table OF ").data, ("J_1BBRANCH").data⟩] :=
  ⟨by decide,
    (claim4_type_table_of none (("Type table OF ").data) (("J_1BBRANCH").data)
      (by decide) (by simp) (by decide) (by decide)).2⟩

/-! ## The Span-Ordered Rewriter (spec-modelled, §4.4) -/

theorem segs_nil (t : Str) (p : Nat) : segs t p [] = t.drop p := rfl

theorem segs_cons (t : Str) (p : Nat) (ed : Edit) (rest : List Edit) :
    segs t p (ed :: rest) =
      (t.take ed.start).drop p ++ ed.repl ++ segs t ed.stop rest := rfl

theorem applyDesc_nil (t : Str) : applyDesc t [] = t := rfl

theorem applyDesc_cons (t : Str) (ed : Edit) (rest : List Edit) :
    applyDesc t (ed :: rest) = splice (applyDesc t rest) ed := rfl

theorem applyAsc_nil (d : Int) (t : Str) : applyAsc d t [] = t := rfl

theorem applyAsc_cons (d : Int) (t : Str) (ed : Edit) (rest : List Edit) :
    applyAsc d t (ed :: rest) =
      applyAsc (d + (ed.repl.length : Int) - ((ed.stop : Int) - (ed.start : Int)))
        (splice t ⟨((ed.start : Int) + d).toNat, ((ed.stop : Int) + d).toNat, ed.repl⟩)
        rest := rfl

theorem chainEd_cons (p : Nat) (ed : Edit) (rest : List Edit) (n : Nat) :
    chainEd p (ed :: rest) n =
      (decide (p ≤ ed.start) && decide (ed.start ≤ ed.stop) && decide (ed.stop ≤ n) &&
        chainEd ed.stop rest n) := rfl

/-- Applying non-overlapping edits right-to-left (descending start offset)
computes the segment normal form. -/
theorem applyDesc_eq_segs : ∀ (edits : List Edit) (t : Str) (p : Nat),
    chainEd p edits t.length = true →
    applyDesc t edits = t.take p ++ segs t p edits := by
  intro edits
  induction edits with
  | nil =>
    intro t p _
    rw [applyDesc_nil, segs_nil, List.take_append_drop]
  | cons ed rest ih =>
    intro t p h
    rw [chainEd_cons] at h
    simp only [Bool.and_eq_true, decide_eq_true_eq] at h
    obtain ⟨⟨⟨h1, h2⟩, h3⟩, h4⟩ := h
    rw [applyDesc_cons, ih t ed.stop h4, segs_cons]
    unfold splice
    have hta : (t.take ed.stop ++ segs t ed.stop rest).take ed.start = t.take ed.start := by
      rw [List.take_append_of_le_length
          (by rw [List.length_take]; exact Nat.le_min.mpr ⟨h2, le_trans h2 h3⟩),
        List.take_take, Nat.min_eq_left h2]
    have htd : (t.take ed.stop ++ segs t ed.stop rest).drop ed.stop =
        segs t ed.stop rest := by
      have hl : (t.take ed.stop).length = ed.stop := by
        rw [List.length_take]; exact Nat.min_eq_left h3
      nth_rewrite 1 [← hl]
      rw [List.drop_left]
    rw [hta, htd]
    have hsplit : t.take p ++ (t.take ed.start).drop p = t.take ed.start := by
      have hx : (t.take ed.start).take p = t.take p := by
        rw [List.take_take, Nat.min_eq_left h1]
      rw [← hx, List.take_append_drop]
    nth_rewrite 1 [← hsplit]
    simp [List.append_assoc]

/-- Applying non-overlapping edits left-to-right with re-computed offsets
also computes the segment normal form: `C` is the already-produced prefix,
`p` the position up to which the original text has been consumed, and the
accumulated delta is `C.length - p`. -/
theorem applyAsc_eq_segs : ∀ (edits : List Edit) (t0 C : Str) (p : Nat),
    chainEd p edits t0.length = true → p ≤ t0.length →
    applyAsc ((C.length : Int) - (p : Int)) (C ++ t0.drop p) edits =
      C ++ segs t0 p edits := by
  intro edits
  induction edits with
  | nil =>
    intro t0 C p _ _
    rw [applyAsc_nil, segs_nil]
  | cons ed rest ih =>
    intro t0 C p h hp
    rw [chainEd_cons] at h
    simp only [Bool.and_eq_true, decide_eq_true_eq] at h
    obtain ⟨⟨⟨h1, h2⟩, h3⟩, h4⟩ := h
    rw [applyAsc_cons]
    have hs' : (((ed.start : Int) + ((C.length : Int) - (p : Int)))).toNat =
        C.length + (ed.start - p) := by omega
    have he' : (((ed.stop : Int) + ((C.length : Int) - (p : Int)))).toNat =
        C.length + (ed.stop - p) := by omega
    have hsp : splice (C ++ t0.drop p)
        ⟨(((ed.start : Int) + ((C.length : Int) - (p : Int)))).toNat,
         (((ed.stop : Int) + ((C.length : Int) - (p : Int)))).toNat, ed.repl⟩ =
        (C ++ (t0.take ed.start).drop p ++ ed.repl) ++ t0.drop ed.stop := by
      unfold splice
      dsimp only
      rw [hs', he', List.take_append, List.drop_append]
      rw [List.drop_drop]
      rw [show p + (ed.stop - p) = ed.stop from by omega]
      rw [show (t0.drop p).take (ed.start - p) = (t0.take ed.start).drop p from
        (List.drop_take ..).symm]
    rw [hsp]
    have hlen : ((t0.take ed.start).drop p).length = ed.start - p := by
      rw [List.length_drop, List.length_take, Nat.min_eq_left (le_trans h2 h3)]
    have hd' : ((C.length : Int) - (p : Int)) + (ed.repl.length : Int) -
        ((ed.stop : Int) - (ed.start : Int)) =
        (((C ++ (t0.take ed.start).drop p ++ ed.repl).length : Int) -
          (ed.stop : Int)) := by
      simp only [List.length_append, hlen]
      omega
    rw [hd', ih t0 (C ++ (t0.take ed.start).drop p ++ ed.repl) ed.stop h4 h3]
    rw [segs_cons]
    simp [List.append_assoc]

/-- C7 (spec-modelled: the Span-Ordered Rewriter of spec §4.4 is not
implemented in the source — `src/app/app.py` only defines the scanner and
the remediation generator — so it is modelled from the spec's words here):
for any finite set of pairwise non-overlapping edits (given ascending;
`applyDesc` splices descending by start offset), the descending strategy
equals the ascending offset-recomputing strategy; the empty edit set leaves
the text unchanged and a single edit yields
`text[:s] + replacement + text[e:]`. -/
theorem claim7_span_rewrite : ∀ (t : Str) (edits : List Edit),
    chainEd 0 edits t.length = true →
    applyDesc t edits = applyAsc 0 t edits ∧
    applyDesc t [] = t ∧
    (∀ e : Edit, applyDesc t [e] = t.take e.start ++ e.repl ++ t.drop e.stop) := by
  intro t edits h
  refine ⟨?_, rfl, fun e => rfl⟩
  rw [applyDesc_eq_segs edits t 0 h]
  have ha := applyAsc_eq_segs edits t [] 0 h (by omega)
  simpa using ha.symm

theorem claim7_witness :
    chainEd 0 [⟨1, 2, ("XY").data⟩, ⟨4, 5, []⟩] (("abcdef").data).length = true ∧
    applyDesc (("abcdef").data) [⟨1, 2, ("XY").data⟩, ⟨4, 5, []⟩] =
      applyAsc 0 (("abcdef").data) [⟨1, 2, ("XY").data⟩, ⟨4, 5, []⟩] :=
  ⟨by decide, (claim7_span_rewrite _ _ (by decide)).1⟩

end App
